import Mathlib

/-!
# Verification of the tinydsl language family core

This file gives a shallow embedding, in Lean 4, of the compile-and-execute
core of the tinydsl repository (a family of small DSLs sharing one
architectural pattern), together with proofs about it:

* `TinyCalc` — the unit-conversion language: the bidirectional unit graph
  built by `define` declarations (`src/tinydsl/parser/lark_tinycalc_parser.py`,
  `TinyCalcTransformer.define_stmt`) and the breadth-first multi-hop
  conversion solver (`TinyCalcTransformer._convert`), plus the
  statement-level runner and the parser-level behaviour of
  `LarkTinyCalcParser.parse` (whose transformer instance is created once at
  parser construction and persists across `parse` calls).
* `TinyMath` — the arithmetic language's statement runner
  (`lark_tinymath_parser.py`), which builds a fresh transformer per `parse`.
* `Lexi` — the text language's eager transformer (`lark_lexi_parser.py`),
  whose statement handlers execute during the bottom-up tree transform.
* `GLI` — the graphics language's unified compiler (`lark_gli_parser.py`),
  with the shared-program-list block-extraction algorithm, the deferred
  operation runner, variables, user functions and the 2-D transform state.

Numeric values are modelled with `ℚ` (the Python sources use IEEE doubles;
all arithmetic relevant to the stated properties is exact).  String
rendering of output fragments (`f"{result} {unit}"` and friends) is
abstracted: output buffers hold structured fragments rather than formatted
text, which preserves exactly the information the properties speak about.
Python dictionaries are modelled as association lists with first-match
lookup and in-place update (matching CPython's insertion-ordered dicts),
and removal of a deferred operation from the shared program list by object
identity is modelled by tagging each created operation with a unique
numeric id.
-/

namespace TinyDSL

/-- First-match lookup in an association list: the model of `d[k]` /
`d.get(k)` for a Python dict (keys are unique in dicts; on lists with
duplicated keys this takes the first, which is the only behaviour the
proofs rely on). -/
def dictGet {α : Type} (k : String) : List (String × α) → Option α
  | [] => none
  | (k', v) :: rest => if k' = k then some v else dictGet k rest

/-- In-place update of an association list: the model of `d[k] = v` for a
Python dict — an existing key keeps its position, a new key is appended
(CPython insertion order). -/
def dictSet {α : Type} (k : String) (v : α) : List (String × α) → List (String × α)
  | [] => [(k, v)]
  | (k', v') :: rest => if k' = k then (k, v) :: rest else (k', v') :: dictSet k v rest

theorem dictGet_dictSet_self {α : Type} (k : String) (v : α) (l : List (String × α)) :
    dictGet k (dictSet k v l) = some v := by
  induction l with
  | nil => simp [dictGet, dictSet]
  | cons p rest ih =>
    by_cases h : p.1 = k <;> simp [dictGet, dictSet, h, ih]

theorem dictGet_dictSet_ne {α : Type} (k k' : String) (v : α) (l : List (String × α))
    (h : k' ≠ k) : dictGet k' (dictSet k v l) = dictGet k' l := by
  have h' : ¬ k = k' := fun hh => h hh.symm
  induction l with
  | nil => simp [dictGet, dictSet, h']
  | cons p rest ih =>
    by_cases hp : p.1 = k
    · simp [dictGet, dictSet, hp, h', hp ▸ h']
    · by_cases hpk : p.1 = k' <;> simp [dictGet, dictSet, hp, hpk, ih, h, h']

theorem dictGet_eq_none_of_not_mem {α : Type} (k : String) (l : List (String × α))
    (h : ¬ k ∈ l.map Prod.fst) : dictGet k l = none := by
  induction l with
  | nil => rfl
  | cons p rest ih =>
    obtain ⟨k', v⟩ := p
    simp only [List.map_cons, List.mem_cons] at h
    push_neg at h
    simp only [dictGet]
    rw [if_neg (fun hh => h.1 hh.symm)]
    exact ih h.2

/-- A key is present after `dictSet` exactly when it is the set key or was
already present. -/
theorem dictGet_dictSet_isSome {α : Type} (k k' : String) (v : α) (l : List (String × α)) :
    (dictGet k' (dictSet k v l)).isSome = (k' = k || (dictGet k' l).isSome) := by
  by_cases h : k' = k
  · subst h; simp [dictGet_dictSet_self]
  · simp [dictGet_dictSet_ne k k' v l h, h]

/-! ## TinyCalc: unit graph and breadth-first conversion solver

Embedding of `src/tinydsl/parser/lark_tinycalc_parser.py`
(`TinyCalcTransformer`): `units : Dict[str, Dict[str, float]]` becomes a
nested association list, `define_stmt` inserts the bidirectional factors,
and `_convert` is the breadth-first search with a FIFO queue of
(unit, accumulated amount) pairs and a visited set. -/

namespace TinyCalc

open TinyDSL

/-- Model of `self.units`: unit name → (neighbor unit → multiplicative factor). -/
abbrev Graph := List (String × List (String × ℚ))

/-- Membership test `u in self.units`. -/
def hasUnit (g : Graph) (u : String) : Bool := (dictGet u g).isSome

/-- Lookup `self.units[u][v]`, as an optional value. -/
def edgeGet (g : Graph) (u v : String) : Option ℚ :=
  (dictGet u g).bind (dictGet v)

/-- Assignment `self.units[u][v] = f` (creating `units[u]` as an empty dict first if
needed, as `define_stmt` does). -/
def edgeSet (g : Graph) (u v : String) (f : ℚ) : Graph :=
  dictSet u (dictSet v f ((dictGet u g).getD [])) g

/-- Errors raised by the TinyCalc transformer.  The Python code raises
`ValueError` with a formatted message; we keep the message structured: for
an unknown unit, `hint` holds the singular form named by the
pluralization hint when the message carries one (`💡 Hint: Use '<s>' …`),
and `none` when the message is the bare `Unknown unit: <name>`. -/
inductive CalcErr where
  /-- Error `Unknown unit: <name>`, with the optional pluralization hint. -/
  | unknownUnit (name : String) (hint : Option String)
  /-- Error `No conversion path from <src> to <tgt>`. -/
  | noPath (src tgt : String)
  /-- Error `ZeroDivisionError` from `q2 / q1` or `q1 / q2` on a zero quantity. -/
  | divByZero
  deriving DecidableEq

/-- Model of `define_stmt(q1, u1, q2, u2)`: computes `factor_forward = q2 / q1` and
`factor_reverse = q1 / q2` (raising on division by zero, as Python float
division does), then stores both directed edges. -/
def define_stmt (g : Graph) (q1 : ℚ) (u1 : String) (q2 : ℚ) (u2 : String) :
    Except CalcErr Graph :=
  if q1 = 0 then .error .divByZero
  else if q2 = 0 then .error .divByZero
  else .ok (edgeSet (edgeSet g u1 u2 (q2 / q1)) u2 u1 (q1 / q2))

/-- Model of `name.endswith('s')`, computed on the character list. -/
def strEndsWithS (s : String) : Bool :=
  match s.data.getLast? with
  | some c => c = 's'
  | none => false

/-- Model of `name[:-1]`: the string with its last character stripped. -/
def strDropLast (s : String) : String := String.mk s.data.dropLast

/-- The pluralization-hint check of `_convert`: a failing name that ends in
`"s"` whose singular form (trailing `"s"` stripped) is a known unit yields
a hint naming that singular form. -/
def pluralHint (g : Graph) (name : String) : Option String :=
  if strEndsWithS name && hasUnit g (strDropLast name) then some (strDropLast name)
  else none

/-- The breadth-first search loop of `_convert`: pop the head of the FIFO
queue; return its accumulated amount if it is the target; skip it if
already visited; otherwise mark it visited and enqueue every not-yet-visited
neighbor with the amount multiplied by the edge factor. -/
def bfs (g : Graph) (src tgt : String) :
    List (String × ℚ) → List String → Except CalcErr ℚ
  | [], _ => .error (.noPath src tgt)
  | (cur, amt) :: rest, visited =>
    if cur = tgt then .ok amt
    else if cur ∈ visited then bfs g src tgt rest visited
    else
      let nbrs := ((dictGet cur g).getD []).filter (fun p => ¬ p.1 ∈ cur :: visited)
      bfs g src tgt (rest ++ nbrs.map (fun p => (p.1, amt * p.2))) (cur :: visited)
  termination_by queue visited =>
    (((g.map Prod.fst).toFinset \ visited.toFinset).card, queue.length)
  decreasing_by
  · exact Prod.Lex.right _ (by simp)
  · rename_i h1 h2
    by_cases hcur : cur ∈ g.map Prod.fst
    · apply Prod.Lex.left
      apply Finset.card_lt_card
      constructor
      · apply Finset.sdiff_subset_sdiff le_rfl
        intro a ha
        simp only [List.toFinset_cons, Finset.mem_insert]
        exact Or.inr ha
      · intro hsub
        have hmem : cur ∈ (g.map Prod.fst).toFinset \ visited.toFinset := by
          simp [List.mem_toFinset, hcur, h2]
        have := hsub hmem
        simp [List.toFinset_cons] at this
    · have hkeys : (g.map Prod.fst).toFinset \ (cur :: visited).toFinset
          = (g.map Prod.fst).toFinset \ visited.toFinset := by
        ext a
        simp only [Finset.mem_sdiff, List.mem_toFinset, List.toFinset_cons,
          Finset.mem_insert]
        constructor
        · rintro ⟨ha, hv⟩
          exact ⟨ha, fun hav => hv (Or.inr hav)⟩
        · rintro ⟨ha, hv⟩
          refine ⟨ha, ?_⟩
          rintro (rfl | hav)
          · exact hcur ha
          · exact hv hav
      rw [hkeys]
      apply Prod.Lex.right
      rw [dictGet_eq_none_of_not_mem cur g hcur]
      simp

/-- Model of `_convert(amount, from_unit, to_unit)`: identity on equal units; unknown
units fail first (with the pluralization hint attached when applicable);
otherwise breadth-first search from the source, starting from the queue
`[(from_unit, amount)]` and an empty visited set. -/
def convert (g : Graph) (amount : ℚ) (src tgt : String) : Except CalcErr ℚ :=
  if src = tgt then .ok amount
  else if ¬ hasUnit g src then .error (.unknownUnit src (pluralHint g src))
  else if ¬ hasUnit g tgt then .error (.unknownUnit tgt (pluralHint g tgt))
  else bfs g src tgt [(src, amount)] []

/-- A successful first-match lookup splits the association list at the first
occurrence of the key. -/
theorem dictGet_split {α : Type} (k : String) (l : List (String × α)) (v : α)
    (h : dictGet k l = some v) :
    ∃ l₁ l₂, l = l₁ ++ (k, v) :: l₂ ∧ ∀ p ∈ l₁, p.1 ≠ k := by
  induction l with
  | nil => simp [dictGet] at h
  | cons p rest ih =>
    obtain ⟨k', v'⟩ := p
    by_cases hk : k' = k
    · subst hk
      simp [dictGet] at h
      exact ⟨[], rest, by simp [h], by simp⟩
    · simp only [dictGet, if_neg hk] at h
      obtain ⟨l₁, l₂, heq, hkeys⟩ := ih h
      refine ⟨(k', v') :: l₁, l₂, by simp [heq], ?_⟩
      intro p hp
      rcases List.mem_cons.mp hp with rfl | hp'
      · exact hk
      · exact hkeys p hp'

/-- If the queue consists of a prefix of entries whose unit is not the
target, followed by an entry for the target carrying amount `a`, the BFS
loop returns `a`: entries enqueued while the prefix is processed go to the
back of the FIFO queue, behind the target's entry. -/
theorem bfs_hits (g : Graph) (src tgt : String) :
    ∀ (pre post : List (String × ℚ)) (visited : List String) (a : ℚ),
      (∀ p ∈ pre, p.1 ≠ tgt) →
      bfs g src tgt (pre ++ (tgt, a) :: post) visited = .ok a := by
  intro pre
  induction pre with
  | nil =>
    intro post visited a _
    simp [bfs]
  | cons q pre' ih =>
    intro post visited a hpre
    obtain ⟨c, x⟩ := q
    have hc : ¬ c = tgt := hpre (c, x) (List.mem_cons_self _ _)
    have hpre' : ∀ p ∈ pre', p.1 ≠ tgt := fun p hp => hpre p (List.mem_cons_of_mem _ hp)
    simp only [List.cons_append, bfs, if_neg hc]
    by_cases hv : c ∈ visited
    · rw [if_pos hv]
      exact ih post visited a hpre'
    · rw [if_neg hv]
      rw [List.append_assoc, List.cons_append]
      exact ih _ (c :: visited) a hpre'

/-- Direct-edge conversion: when the target is a neighbor of the source,
BFS pops the source, enqueues all its neighbors (the target among them,
with the accumulated amount `amt * f`), and every queue entry ahead of the
target's belongs to a different unit, so the target's own entry is the
first one popped for it.  Hence `convert` returns exactly the amount
multiplied by the direct edge factor. -/
theorem convert_direct (g : Graph) (A B : String) (amt f : ℚ)
    (hAB : A ≠ B) (hA : hasUnit g A = true) (hB : hasUnit g B = true)
    (hf : edgeGet g A B = some f) :
    convert g amt A B = .ok (amt * f) := by
  obtain ⟨nl, hnl⟩ : ∃ nl, dictGet A g = some nl := by
    cases hg : dictGet A g with
    | none => rw [hasUnit, hg] at hA; simp at hA
    | some nl => exact ⟨nl, rfl⟩
  have hBnl : dictGet B nl = some f := by
    rw [edgeGet, hnl] at hf
    exact hf
  obtain ⟨l₁, l₂, heq, hkeys⟩ := dictGet_split B nl f hBnl
  rw [convert, if_neg hAB, if_neg (by simp [hA]), if_neg (by simp [hB])]
  rw [bfs, if_neg hAB, if_neg (List.not_mem_nil A)]
  simp only [hnl, Option.getD_some, heq, List.filter_append, List.filter_cons]
  have hBpass : (decide ¬ (B, f).1 ∈ A :: ([] : List String)) = true := by
    simp [Ne.symm hAB]
  rw [hBpass]
  simp only [if_pos rfl, List.map_append, List.map_cons, List.nil_append]
  exact bfs_hits g A B _ _ [A] (amt * f) (by
    intro p hp
    simp only [List.mem_map, List.mem_filter] at hp
    obtain ⟨q, ⟨hq1, _⟩, hq2⟩ := hp
    rw [← hq2]
    exact hkeys q hq1)

theorem hasUnit_edgeSet (g : Graph) (u v w : String) (f : ℚ) :
    hasUnit (edgeSet g u v f) w = (w = u || hasUnit g w) := by
  rw [hasUnit, edgeSet, dictGet_dictSet_isSome, hasUnit]

theorem dictGet_edgeSet_ne (g : Graph) (u v w : String) (f : ℚ) (h : w ≠ u) :
    dictGet w (edgeSet g u v f) = dictGet w g :=
  dictGet_dictSet_ne u w _ g h

/-- After `define 1 A = k B` (with nonzero quantities), the forward edge
`A→B` carries exactly the forward factor. -/
theorem edgeGet_define_fwd (g : Graph) (q1 q2 : ℚ) (u1 u2 : String) (hne : u1 ≠ u2) :
    edgeGet (edgeSet (edgeSet g u1 u2 (q2 / q1)) u2 u1 (q1 / q2)) u1 u2 = some (q2 / q1) := by
  rw [edgeGet, edgeSet, dictGet_dictSet_ne _ _ _ _ hne, edgeSet, dictGet_dictSet_self,
    Option.some_bind, dictGet_dictSet_self]

/-- After `define 1 A = k B` (with nonzero quantities), the reverse edge
`B→A` carries exactly the reverse factor. -/
theorem edgeGet_define_rev (g : Graph) (q1 q2 : ℚ) (u1 u2 : String) :
    edgeGet (edgeSet (edgeSet g u1 u2 (q2 / q1)) u2 u1 (q1 / q2)) u2 u1 = some (q1 / q2) := by
  rw [edgeGet, edgeSet, dictGet_dictSet_self, Option.some_bind, dictGet_dictSet_self]

/-- The handler `define_stmt` touches no directed edge other than `u1→u2` and `u2→u1`. -/
theorem edgeGet_define_frame (g : Graph) (q1 q2 : ℚ) (u1 u2 : String) (hne : u1 ≠ u2)
    (u v : String) (h12 : ¬ (u = u1 ∧ v = u2)) (h21 : ¬ (u = u2 ∧ v = u1)) :
    edgeGet (edgeSet (edgeSet g u1 u2 (q2 / q1)) u2 u1 (q1 / q2)) u v = edgeGet g u v := by
  by_cases hu2 : u = u2
  · subst hu2
    have hv : v ≠ u1 := fun hv => h21 ⟨rfl, hv⟩
    rw [edgeGet, edgeSet, dictGet_dictSet_self]
    rw [Option.some_bind]
    rw [dictGet_dictSet_ne _ _ _ _ hv]
    rw [edgeSet, dictGet_dictSet_ne _ _ _ _ (fun hh => hne hh.symm)]
    rw [edgeGet]
    cases hg : dictGet u g <;> simp [hg, dictGet]
  · by_cases hu1 : u = u1
    · subst hu1
      have hv : v ≠ u2 := fun hv => h12 ⟨rfl, hv⟩
      rw [edgeGet, edgeSet, dictGet_dictSet_ne _ _ _ _ hu2, edgeSet, dictGet_dictSet_self]
      rw [Option.some_bind]
      rw [dictGet_dictSet_ne _ _ _ _ hv]
      rw [edgeGet]
      cases hg : dictGet u g <;> simp [hg, dictGet]
    · rw [edgeGet, edgeSet, dictGet_dictSet_ne _ _ _ _ hu2, edgeSet,
        dictGet_dictSet_ne _ _ _ _ hu1, edgeGet]

/-- The bidirectionality invariant of the unit graph: every stored directed
edge is nonzero and is paired with the reciprocal edge in the other
direction. -/
def Symm (g : Graph) : Prop :=
  ∀ u v f, edgeGet g u v = some f → f ≠ 0 ∧ edgeGet g v u = some (1 / f)

theorem symm_empty : Symm ([] : Graph) := by
  intro u v f h
  simp [edgeGet, dictGet] at h

/-- One `define` declaration relating two distinct unit names preserves the
bidirectionality invariant. -/
theorem symm_define (g : Graph) (q1 q2 : ℚ) (u1 u2 : String)
    (h1 : q1 ≠ 0) (h2 : q2 ≠ 0) (hne : u1 ≠ u2) (hs : Symm g) :
    Symm (edgeSet (edgeSet g u1 u2 (q2 / q1)) u2 u1 (q1 / q2)) := by
  intro u v f hedge
  by_cases h12 : u = u1 ∧ v = u2
  · rw [h12.1, h12.2] at hedge ⊢
    rw [edgeGet_define_fwd g q1 q2 u1 u2 hne] at hedge
    have hf : q2 / q1 = f := by injection hedge
    subst hf
    refine ⟨div_ne_zero h2 h1, ?_⟩
    rw [edgeGet_define_rev g q1 q2 u1 u2, one_div_div]
  · by_cases h21 : u = u2 ∧ v = u1
    · rw [h21.1, h21.2] at hedge ⊢
      rw [edgeGet_define_rev g q1 q2 u1 u2] at hedge
      have hf : q1 / q2 = f := by injection hedge
      subst hf
      refine ⟨div_ne_zero h1 h2, ?_⟩
      rw [edgeGet_define_fwd g q1 q2 u1 u2 hne, one_div_div]
    · rw [edgeGet_define_frame g q1 q2 u1 u2 hne u v h12 h21] at hedge
      obtain ⟨hf, hrev⟩ := hs u v f hedge
      refine ⟨hf, ?_⟩
      rw [edgeGet_define_frame g q1 q2 u1 u2 hne v u
        (fun hh => h21 ⟨hh.2, hh.1⟩) (fun hh => h12 ⟨hh.2, hh.1⟩)]
      exact hrev

/-! ### Statement-level runner and parser-level state

`TinyCalcTransformer` holds `self.units` and `self.output`; we model the
two statement kinds the claims are about (`define_stmt`, `convert_stmt`;
the transformer also has `set_base_stmt`, `compute_stmt` and `show_stmt`,
which play no role in the stated properties).  An output fragment is the
(amount, unit) pair that `convert_stmt` formats as `f"{result} {to_unit}"`
and appends to `self.output`. -/

inductive TCStmt where
  /-- Statement `define q1 u1 = q2 u2` -/
  | defineS (q1 : ℚ) (u1 : String) (q2 : ℚ) (u2 : String)
  /-- Statement `convert amount src to tgt` -/
  | convertS (amount : ℚ) (src tgt : String)
  deriving DecidableEq

/-- The mutable state of one `TinyCalcTransformer` instance. -/
structure TCState where
  units : Graph
  output : List (ℚ × String)
  deriving DecidableEq

/-- Model of `TinyCalcTransformer.__init__`. -/
def TCState.init : TCState := ⟨[], []⟩

/-- One statement handler firing during the (bottom-up, in statement
order) tree transform. -/
def tcExec (st : TCState) : TCStmt → Except CalcErr TCState
  | .defineS q1 u1 q2 u2 =>
    match define_stmt st.units q1 u1 q2 u2 with
    | .ok g => .ok { st with units := g }
    | .error e => .error e
  | .convertS a src tgt =>
    match convert st.units a src tgt with
    | .ok r => .ok { st with output := st.output ++ [(r, tgt)] }
    | .error e => .error e

/-- Running the statements of one source text against the (persistent)
transformer state: statements fire in order until one raises; the raising
statement aborts the transform, and the mutations made by the statements
before it remain in the transformer. -/
def tcRunP : TCState → List TCStmt → TCState × Option CalcErr
  | st, [] => (st, none)
  | st, s :: rest =>
    match tcExec st s with
    | .ok st' => tcRunP st' rest
    | .error e => (st, some e)

/-- Model of `LarkTinyCalcParser.parse(code)`: the parser was constructed with
`Lark(grammar, parser="lalr", transformer=TinyCalcTransformer())`, so one
transformer instance (state `st`) persists across `parse` calls.  On
success the `start` handler returns `"\n".join(self.output)` — the whole
buffer, including fragments left over from earlier `parse` calls; on an
exception, `parse` re-raises a wrapped error and returns nothing.  The
result pairs the post-call transformer state with the returned value. -/
def tcParse (st : TCState) (prog : List TCStmt) :
    TCState × Except CalcErr (List (ℚ × String)) :=
  match tcRunP st prog with
  | (st', none) => (st', .ok st'.output)
  | (st', some e) => (st', .error e)

/-- No statement shrinks the output buffer, and `convert_stmt` only ever
appends: the buffer of the transformer state after running any program
extends the buffer before it. -/
theorem tcRunP_output_prefix : ∀ (prog : List TCStmt) (st : TCState),
    ∃ tail, ((tcRunP st prog).1).output = st.output ++ tail := by
  intro prog
  induction prog with
  | nil => intro st; exact ⟨[], by simp [tcRunP]⟩
  | cons s rest ih =>
    intro st
    rw [tcRunP]
    cases s with
    | defineS q1 u1 q2 u2 =>
      cases hd : define_stmt st.units q1 u1 q2 u2 with
      | ok g =>
        simp only [tcExec, hd]
        obtain ⟨tail, ht⟩ := ih { st with units := g }
        exact ⟨tail, ht⟩
      | error e => exact ⟨[], by simp [tcExec, hd]⟩
    | convertS a src tgt =>
      cases hc : convert st.units a src tgt with
      | ok r =>
        simp only [tcExec, hc]
        obtain ⟨tail, ht⟩ := ih { st with output := st.output ++ [(r, tgt)] }
        exact ⟨(r, tgt) :: tail, by simp only [ht]; simp⟩
      | error e => exact ⟨[], by simp [tcExec, hc]⟩

end TinyCalc

/-! ## TinyMath: the arithmetic language

Embedding of `src/tinydsl/parser/lark_tinymath_parser.py`.  Expressions
are evaluated during the bottom-up transform; `assignment` and `show_stmt`
append a `"{name} = {value}"` line and a bare expression statement appends
`str(result)` to `self.results`.  Output lines are kept structured (the
claims do not depend on decimal formatting).  The modelled expression
forms are the ones the stated properties exercise (literals, variables and
the binary arithmetic handlers, including the zero-divisor check of
`div`); `LarkTinyMathParser.parse` builds a fresh `TinyMathTransformer`
for every call and wraps any raised error. -/

namespace TinyMath

open TinyDSL

inductive TMExpr where
  | num (q : ℚ)
  | var (name : String)
  | add (a b : TMExpr)
  | sub (a b : TMExpr)
  | mul (a b : TMExpr)
  | div (a b : TMExpr)
  | neg (a : TMExpr)
  deriving DecidableEq

/-- Bottom-up evaluation of an expression tree: `var` raises
`Undefined variable` on a name never assigned, `div` raises
`Division by zero` when the second operand is zero. -/
def tmEval (vars : List (String × ℚ)) : TMExpr → Except String ℚ
  | .num q => .ok q
  | .var n =>
    match dictGet n vars with
    | some v => .ok v
    | none => .error ("Undefined variable: " ++ n)
  | .add a b => do pure ((← tmEval vars a) + (← tmEval vars b))
  | .sub a b => do pure ((← tmEval vars a) - (← tmEval vars b))
  | .mul a b => do pure ((← tmEval vars a) * (← tmEval vars b))
  | .div a b => do
    let x ← tmEval vars a
    let y ← tmEval vars b
    if y = 0 then .error "Division by zero" else pure (x / y)
  | .neg a => do pure (-(← tmEval vars a))

inductive TMStmt where
  /-- Statement `name = expr` -/
  | assignment (name : String) (e : TMExpr)
  /-- Statement `show name` -/
  | show_stmt (name : String)
  /-- a bare expression statement -/
  | exprS (e : TMExpr)
  deriving DecidableEq

/-- One line of `self.results` (structured in place of the formatted
string). -/
inductive TMFrag where
  | assignF (name : String) (v : ℚ)
  | showF (name : String) (v : ℚ)
  | exprF (v : ℚ)
  deriving DecidableEq

/-- The state of one `TinyMathTransformer` (`self.variables`,
`self.results`). -/
structure TMState where
  vars : List (String × ℚ)
  results : List TMFrag
  deriving DecidableEq

def TMState.init : TMState := ⟨[], []⟩

def tmStmtExec (st : TMState) : TMStmt → Except String TMState
  | .assignment n e =>
    match tmEval st.vars e with
    | .ok v =>
      .ok ⟨dictSet n v st.vars, st.results ++ [.assignF n v]⟩
    | .error e => .error e
  | .show_stmt n =>
    match dictGet n st.vars with
    | some v => .ok { st with results := st.results ++ [.showF n v] }
    | none => .error ("Undefined variable: " ++ n)
  | .exprS e =>
    match tmEval st.vars e with
    | .ok v => .ok { st with results := st.results ++ [.exprF v] }
    | .error e => .error e

/-- Statements fire in order during the transform; the first raising
statement aborts the whole transform. -/
def tmRun : TMState → List TMStmt → Except String TMState
  | st, [] => .ok st
  | st, s :: rest =>
    match tmStmtExec st s with
    | .ok st' => tmRun st' rest
    | .error e => .error e

/-- Model of `LarkTinyMathParser.parse(code)`: a fresh transformer per call; on
success the joined `results` lines are returned, on any raised error a
wrapped `TinyMath parse error` is raised instead and nothing is
returned. -/
def tmParse (prog : List TMStmt) : Except String (List TMFrag) :=
  match tmRun TMState.init prog with
  | .ok st => .ok st.results
  | .error e => .error ("TinyMath parse error: " ++ e)

end TinyMath

/-! ## Lexi: the text language's eager transformer

Embedding of `src/tinydsl/parser/lark_lexi_parser.py` (`LexiTransformer`).
Unlike the graphics compiler, the Lexi statement handlers perform their
effects immediately when the bottom-up transform visits them: `say_stmt`
appends to `self.output` at visit time, so the statements inside a block
have already fired (once, in source order) by the time the enclosing
block handler runs.  `repeat_block(count, block)` receives the list of
already-transformed (hence already-executed) body statements and runs
`for i in range(count): self.context["i"] = i; for stmt in block: pass` —
the inner loop body is `pass`, so only the loop index variable is
written. -/

namespace Lexi

open TinyDSL

inductive LVal where
  | num (q : ℚ)
  | str (s : String)
  deriving DecidableEq

inductive LStmt where
  /-- Statement `say "text"` -/
  | say_stmt (text : String)
  /-- Statement `set name value` (value modelled already-evaluated; the handler's
  math-expression fallback is not needed by the stated properties) -/
  | set_stmt (name : String) (v : LVal)
  /-- Statement `repeat count ... ` with a braced block body -/
  | repeat_block (count : ℕ) (block : List LStmt)

/-- The mutable transformer state: `self.context` and `self.output` (the
durable `self.memory` store is an external collaborator). -/
structure LexiState where
  context : List (String × LVal)
  output : List String
  deriving DecidableEq

def LexiState.init : LexiState := ⟨[], []⟩

mutual

/-- Effect of visiting one statement node (children first, then the
node's own handler), in source order. -/
def lexiStmt : LexiState → LStmt → LexiState
  | st, .say_stmt text => { st with output := st.output ++ [text] }
  | st, .set_stmt name v => { st with context := dictSet name v st.context }
  | st, .repeat_block count block =>
    -- the block's statements were visited (and performed their effects)
    -- exactly once, before the repeat handler fires
    let st₁ := lexiList st block
    -- the handler itself: count passes that write the loop index and
    -- iterate over the inert transformed children
    (List.range count).foldl
      (fun s i => { s with context := dictSet "i" (.num i) s.context }) st₁

/-- Visiting a list of sibling statements in source order. -/
def lexiList : LexiState → List LStmt → LexiState
  | st, [] => st
  | st, s :: rest => lexiList (lexiStmt st s) rest

end

/-- Model of `LarkLexiParser.parse` (v1): the output buffer after transforming the
program (joined with newlines by the caller). -/
def lexiParse (st : LexiState) (prog : List LStmt) : List String :=
  (lexiList st prog).output

end Lexi

/-! ## GLI: the graphics language's unified compiler and runner

Embedding of `src/tinydsl/parser/lark_gli_parser.py` (`_GLICompiler`).
The transform is split into its two phases exactly as the Python class
realises them:

* **Compilation** (`compileStmt` / `compileList`): every statement handler
  creates one deferred operation and appends it to the shared
  `self.program` list; the block-owning handlers (`repeat_block`,
  `if_block`, `func_def`) receive their already-transformed children,
  remove each child operation from the shared list (by object identity —
  modelled by a unique numeric id stamped on every created operation;
  `list.remove` drops the first match and a missing operation is left
  alone), and append their own wrapping operation.  `func_def` registers
  the body under the function name in `self.functions` at compile time and
  appends a no-op placeholder.
* **Execution** (`runTask`): the `start` handler runs the retained
  top-level operations in order.  Execution is given step fuel to make the
  (possibly reentrant, via user functions) interpreter total; `.outOfFuel`
  is a modelling artefact, not a behaviour of the source.

Argument values reaching `_eval_value` are modelled by `GExpr`: `.lit` is
a numeric literal (a float, or a string that parses as a number — both
evaluate to the same number), `.ivar` is the literal `$i`, and `.name` a
plain identifier or word (a variable name or a color word; not
math-shaped, so `_looks_math` is false and `float()` fails on it). -/

namespace GLI

open TinyDSL

inductive GVal where
  | num (q : ℚ)
  | str (s : String)
  deriving DecidableEq

/-- A raw argument value as captured at compile time. -/
inductive GExpr where
  | lit (q : ℚ)
  | ivar
  | name (s : String)
  deriving DecidableEq

/-- Model of `self.current_transform`. -/
structure Transform2D where
  rotation : ℚ
  scale_x : ℚ
  scale_y : ℚ
  tx : ℚ
  ty : ℚ
  deriving DecidableEq

def Transform2D.init : Transform2D := ⟨0, 1, 1, 0, 0⟩

/-- A shape record, in the v1 `(name, x, y, size, color)` or v2
`(name, x, y, size, color, rotation, transform)` tuple form. -/
inductive GShape where
  | v1 (kind : String) (x y size : ℚ) (color : String)
  | v2 (kind : String) (x y size : ℚ) (color : String) (rotation : ℚ) (tm : List ℚ)
  deriving DecidableEq

/-- The mutable interpreter state threaded through a run: `self.shapes`,
`self.context`, `self.variables`, `self.i`, `self.current_transform` and
`self.transform_stack`. -/
structure GRunState where
  shapes : List GShape
  context : List (String × GVal)
  vars : List (String × GVal)
  i : ℚ
  transform : Transform2D
  stack : List Transform2D
  deriving DecidableEq

/-- Model of `_GLICompiler.__init__`: `context = {"color": "black", "size": 10.0}`,
everything else empty. -/
def GRunState.init : GRunState :=
  ⟨[], [("color", .str "black"), ("size", .num 10)], [], 0, Transform2D.init, []⟩

/-- Model of `_eval_value(raw)`, restricted to the representable raw values: in v2
a name (or `i`, after the `$i` → `i` replacement) that denotes a defined
variable evaluates to the variable's value; `$i` otherwise evaluates to
the current loop index through the math context; a plain word falls back
to the literal string. -/
def eval_value (ver : Bool) (st : GRunState) : GExpr → GVal
  | .lit q => .num q
  | .ivar =>
    if ver then
      match dictGet "i" st.vars with
      | some v => v
      | none => .num st.i
    else .num st.i
  | .name s =>
    if ver then
      match dictGet s st.vars with
      | some v => v
      | none => .str s
    else .str s

def GVal.toNum : GVal → Option ℚ
  | .num q => some q
  | .str _ => none

/-- Rendering `str(value)` (decimal formatting abstracted). -/
def GVal.render : GVal → String
  | .num q => toString q
  | .str s => s

/-- Errors the deferred operations can raise at run time. -/
inductive GErr where
  /-- modelling artefact: execution fuel exhausted -/
  | outOfFuel
  /-- Error `ValueError: x/y must be numeric after evaluation` from `draw` -/
  | drawNonNumeric (shape : String)
  /-- Python `TypeError` from an order comparison on unsupported operands -/
  | typeError
  /-- Error from `float()` applied to a non-numeric string in a transform statement -/
  | transformNonNumeric
  /-- Error from `float()` applied to a non-numeric `size` context entry in `draw` -/
  | sizeNonNumeric
  deriving DecidableEq

/-- A compiled deferred operation.  Block-owning operations carry the
id-stamped operations extracted from their body. -/
inductive GOp where
  | set_stmt (key : String) (value : GExpr)
  | draw_stmt (shape : String) (x y : GExpr)
  | var_stmt (name : String) (value : GExpr)
  | repeat_block (count : ℕ) (block : List (ℕ × GOp))
  | if_block (name : String) (cmp : String) (value : GExpr)
      (block : List (ℕ × GOp)) (else_block : List (ℕ × GOp))
  /-- the placeholder appended by `func_def` -/
  | func_noop
  | call_stmt (name : String) (args : List GExpr)
  | rotate (angle : GExpr)
  | scale (sx : GExpr) (sy : Option GExpr)
  | translate (tx ty : GExpr)
  | push
  | pop

/-- A statement node of the parse tree (the statement vocabulary of the
unified v1/v2 grammar). -/
inductive GStmt where
  | set_stmt (key : String) (value : GExpr)
  | draw_stmt (shape : String) (x y : GExpr)
  | var_stmt (name : String) (value : GExpr)
  | repeat_block (count : ℕ) (body : List GStmt)
  | if_block (name : String) (cmp : String) (value : GExpr)
      (body : List GStmt) (else_body : List GStmt)
  | func_def (name : String) (params : List String) (body : List GStmt)
  | call_stmt (name : String) (args : List GExpr)
  | rotate (angle : GExpr)
  | scale (sx : GExpr) (sy : Option GExpr)
  | translate (tx ty : GExpr)
  | push
  | pop

/-- The compile-time state of `_GLICompiler`: the shared `self.program`
list, the `self.functions` registry, and the id counter that models
object identity of the created closures. -/
structure CState where
  program : List (ℕ × GOp)
  functions : List (String × (List String × List (ℕ × GOp)))
  fresh : ℕ

def CState.init : CState := ⟨[], [], 0⟩

/-- Model of `self.program.remove(op)`: drop the first entry with the given id (no
effect when absent, matching the `if op in self.program` guard). -/
def removeFirst (id : ℕ) : List (ℕ × GOp) → List (ℕ × GOp)
  | [] => []
  | p :: rest => if p.1 = id then rest else p :: removeFirst id rest

/-- The removal loop of a block-owning handler:
`for op in block_ops: if op in self.program: self.program.remove(op)`. -/
def removeOps (ops : List (ℕ × GOp)) (prog : List (ℕ × GOp)) : List (ℕ × GOp) :=
  ops.foldl (fun p op => removeFirst op.1 p) prog

/-- A non-block statement handler: create the deferred operation (with a
fresh identity) and append it to the shared program list, returning it as
the handler's value. -/
def emit (core : GOp) (s : CState) : (ℕ × GOp) × CState :=
  ((s.fresh, core),
   { s with program := s.program ++ [(s.fresh, core)], fresh := s.fresh + 1 })

mutual

/-- The statement handlers of `_GLICompiler`, in bottom-up visit order:
children are compiled (and appended to the shared program list) before the
enclosing handler fires. -/
def compileStmt : GStmt → CState → ((ℕ × GOp) × CState)
  | .set_stmt k v, s => emit (.set_stmt k v) s
  | .draw_stmt sh x y, s => emit (.draw_stmt sh x y) s
  | .var_stmt n v, s => emit (.var_stmt n v) s
  | .repeat_block n body, s =>
    let r := compileList body s
    let prog := removeOps r.1 r.2.program
    let op := (r.2.fresh, GOp.repeat_block n r.1)
    (op, { r.2 with program := prog ++ [op], fresh := r.2.fresh + 1 })
  | .if_block n cmp v thn els, s =>
    let rt := compileList thn s
    let re := compileList els rt.2
    let prog := removeOps re.1 (removeOps rt.1 re.2.program)
    let op := (re.2.fresh, GOp.if_block n cmp v rt.1 re.1)
    (op, { re.2 with program := prog ++ [op], fresh := re.2.fresh + 1 })
  | .func_def n params body, s =>
    let r := compileList body s
    let prog := removeOps r.1 r.2.program
    let op := (r.2.fresh, GOp.func_noop)
    (op, { program := prog ++ [op],
           functions := dictSet n (params, r.1) r.2.functions,
           fresh := r.2.fresh + 1 })
  | .call_stmt n args, s => emit (.call_stmt n args) s
  | .rotate a, s => emit (.rotate a) s
  | .scale sx sy, s => emit (.scale sx sy) s
  | .translate tx ty, s => emit (.translate tx ty) s
  | .push, s => emit .push s
  | .pop, s => emit .pop s

/-- Transforming a `block` (or the `start` rule's statement list):
children in source order; the handler returns the list of their deferred
operations. -/
def compileList : List GStmt → CState → (List (ℕ × GOp) × CState)
  | [], s => ([], s)
  | t :: ts, s =>
    let r := compileStmt t s
    let rs := compileList ts r.2
    (r.1 :: rs.1, rs.2)

end

/-! ### The block-extraction invariant

Every handler appends exactly the operations of its subtree to the shared
program list and removes exactly those claimed by nested owners, so the
net effect of compiling one statement is to append its own single
(wrapping) operation.  The proofs track the id counter: ids already in the
program are below `fresh`, the operations returned for a subtree carry ids
in `[fresh, fresh')` and are pairwise distinct, which makes the
identity-based removal of a block's children remove exactly those children
and nothing else. -/

def opIds (l : List (ℕ × GOp)) : List ℕ := l.map Prod.fst

/-- Every operation in the shared program list was stamped before the
current value of the id counter. -/
def IdBound (s : CState) : Prop := ∀ p ∈ s.program, p.1 < s.fresh

theorem removeFirst_append (id : ℕ) (l₁ l₂ : List (ℕ × GOp)) (h : ¬ id ∈ opIds l₁) :
    removeFirst id (l₁ ++ l₂) = l₁ ++ removeFirst id l₂ := by
  induction l₁ with
  | nil => simp
  | cons p rest ih =>
    simp only [opIds, List.map_cons, List.mem_cons] at h
    push_neg at h
    simp only [List.cons_append, removeFirst, if_neg (fun hh : p.1 = id => h.1 hh.symm)]
    show p :: removeFirst id (rest ++ l₂) = p :: (rest ++ removeFirst id l₂)
    rw [ih (by simpa [opIds] using h.2)]

/-- Removing a block's already-appended children (pairwise-distinct ids,
none of them occurring earlier in the list) from the shared program list
removes exactly those children. -/
theorem removeOps_extract (ops l₁ l₂ : List (ℕ × GOp))
    (hnd : (opIds ops).Nodup) (hdisj : ∀ i ∈ opIds ops, ¬ i ∈ opIds l₁) :
    removeOps ops (l₁ ++ (ops ++ l₂)) = l₁ ++ l₂ := by
  induction ops generalizing l₂ with
  | nil => simp [removeOps]
  | cons op rest ih =>
    simp only [opIds, List.map_cons, List.nodup_cons] at hnd
    have hop : ¬ op.1 ∈ opIds l₁ :=
      hdisj op.1 (by simp [opIds])
    have hrest : ∀ i ∈ opIds rest, ¬ i ∈ opIds l₁ := fun i hi =>
      hdisj i (by simp only [opIds, List.map_cons, List.mem_cons]; exact Or.inr hi)
    simp only [removeOps, List.foldl_cons]
    rw [show (l₁ ++ ((op :: rest) ++ l₂)) = l₁ ++ (op :: (rest ++ l₂)) by simp]
    rw [removeFirst_append op.1 l₁ _ hop]
    simp only [removeFirst, if_pos rfl]
    exact ih _ hnd.2 hrest

theorem removeOps_append_self (ops l₁ : List (ℕ × GOp))
    (hnd : (opIds ops).Nodup) (hdisj : ∀ i ∈ opIds ops, ¬ i ∈ opIds l₁) :
    removeOps ops (l₁ ++ ops) = l₁ := by
  have h := removeOps_extract ops l₁ [] hnd hdisj
  simpa using h

/-- What compiling one statement does to the compiler state: the shared
program grows by exactly the returned operation, id bounds are preserved,
the counter is monotone, and the returned operation's id lies in the
fresh-id window. -/
def StmtSpec (t : GStmt) (s : CState) : Prop :=
  IdBound s →
    (compileStmt t s).2.program = s.program ++ [(compileStmt t s).1] ∧
    IdBound (compileStmt t s).2 ∧
    s.fresh ≤ (compileStmt t s).2.fresh ∧
    s.fresh ≤ (compileStmt t s).1.1 ∧
    (compileStmt t s).1.1 < (compileStmt t s).2.fresh

/-- What compiling a statement list does: the shared program grows by
exactly the returned operations, whose ids are pairwise distinct and lie
in the fresh-id window. -/
def ListSpec (ts : List GStmt) (s : CState) : Prop :=
  IdBound s →
    (compileList ts s).2.program = s.program ++ (compileList ts s).1 ∧
    IdBound (compileList ts s).2 ∧
    s.fresh ≤ (compileList ts s).2.fresh ∧
    (∀ p ∈ (compileList ts s).1,
      s.fresh ≤ p.1 ∧ p.1 < (compileList ts s).2.fresh) ∧
    (opIds (compileList ts s).1).Nodup

theorem emit_spec (core : GOp) (s : CState) (hb : IdBound s) :
    (emit core s).2.program = s.program ++ [(emit core s).1] ∧
    IdBound (emit core s).2 ∧
    s.fresh ≤ (emit core s).2.fresh ∧
    s.fresh ≤ (emit core s).1.1 ∧
    (emit core s).1.1 < (emit core s).2.fresh := by
  refine ⟨rfl, ?_, Nat.le_succ _, le_rfl, Nat.lt_succ_self _⟩
  intro p hp
  simp only [emit] at hp
  rcases List.mem_append.mp hp with h | h
  · exact Nat.lt_succ_of_lt (hb p h)
  · simp only [List.mem_singleton] at h
    rw [h]
    exact Nat.lt_succ_self _

/-- Child operations returned for a subtree never collide with ids already
in the program list before the subtree was compiled. -/
theorem ids_disjoint (s : CState) (hb : IdBound s) (ops : List (ℕ × GOp))
    (hlb : ∀ p ∈ ops, s.fresh ≤ p.1) :
    ∀ i ∈ opIds ops, ¬ i ∈ opIds s.program := by
  intro i hi hmem
  simp only [opIds, List.mem_map] at hi hmem
  obtain ⟨p, hp, rfl⟩ := hi
  obtain ⟨q, hq, hqi⟩ := hmem
  have h1 := hlb p hp
  have h2 := hb q hq
  omega

theorem spec_emit (core : GOp) (s : CState) (hb : IdBound s) :
    (emit core s).2.program = s.program ++ [(emit core s).1] ∧
    IdBound (emit core s).2 ∧ s.fresh ≤ (emit core s).2.fresh ∧
    s.fresh ≤ (emit core s).1.1 ∧ (emit core s).1.1 < (emit core s).2.fresh :=
  emit_spec core s hb

theorem spec_repeat (n : ℕ) (body : List GStmt) (s : CState)
    (ih : ListSpec body s) : StmtSpec (GStmt.repeat_block n body) s := by
  intro hb
  obtain ⟨hprog, hbound, hfresh, hwin, hnd⟩ := ih hb
  have hremove : removeOps (compileList body s).1 (compileList body s).2.program
      = s.program := by
    rw [hprog]
    exact removeOps_append_self _ _ hnd (ids_disjoint s hb _ (fun p hp => (hwin p hp).1))
  refine ⟨?_, ?_, ?_, ?_, ?_⟩
  · show removeOps (compileList body s).1 (compileList body s).2.program
        ++ [((compileList body s).2.fresh, GOp.repeat_block n (compileList body s).1)]
      = s.program
        ++ [((compileList body s).2.fresh, GOp.repeat_block n (compileList body s).1)]
    rw [hremove]
  · intro p hp
    have hp2 : p ∈ removeOps (compileList body s).1 (compileList body s).2.program
        ++ [((compileList body s).2.fresh, GOp.repeat_block n (compileList body s).1)] := hp
    rw [hremove] at hp2
    show p.1 < (compileList body s).2.fresh + 1
    rcases List.mem_append.mp hp2 with h | h
    · have h1 := hb p h
      have h2 := hfresh
      omega
    · simp only [List.mem_singleton] at h
      subst h
      exact Nat.lt_succ_self _
  · show s.fresh ≤ (compileList body s).2.fresh + 1
    omega
  · show s.fresh ≤ (compileList body s).2.fresh
    exact hfresh
  · show (compileList body s).2.fresh < (compileList body s).2.fresh + 1
    exact Nat.lt_succ_self _

theorem spec_if (n cmp : String) (v : GExpr) (thn els : List GStmt) (s : CState)
    (ih1 : ListSpec thn s) (ih2 : ListSpec els (compileList thn s).2) :
    StmtSpec (GStmt.if_block n cmp v thn els) s := by
  intro hb
  obtain ⟨h1prog, h1bound, h1fresh, h1win, h1nd⟩ := ih1 hb
  obtain ⟨h2prog, h2bound, h2fresh, h2win, h2nd⟩ := ih2 h1bound
  have h2lb : ∀ p ∈ (compileList els (compileList thn s).2).1, s.fresh ≤ p.1 :=
    fun p hp => le_trans h1fresh (h2win p hp).1
  have hremove : removeOps (compileList els (compileList thn s).2).1
      (removeOps (compileList thn s).1 (compileList els (compileList thn s).2).2.program)
      = s.program := by
    rw [h2prog, h1prog, List.append_assoc]
    rw [removeOps_extract _ s.program _ h1nd
      (ids_disjoint s hb _ (fun p hp => (h1win p hp).1))]
    exact removeOps_append_self _ _ h2nd (ids_disjoint s hb _ h2lb)
  refine ⟨?_, ?_, ?_, ?_, ?_⟩
  · show removeOps (compileList els (compileList thn s).2).1
        (removeOps (compileList thn s).1 (compileList els (compileList thn s).2).2.program)
        ++ [((compileList els (compileList thn s).2).2.fresh,
             GOp.if_block n cmp v (compileList thn s).1 (compileList els (compileList thn s).2).1)]
      = s.program
        ++ [((compileList els (compileList thn s).2).2.fresh,
             GOp.if_block n cmp v (compileList thn s).1 (compileList els (compileList thn s).2).1)]
    rw [hremove]
  · intro p hp
    have hp2 : p ∈ removeOps (compileList els (compileList thn s).2).1
        (removeOps (compileList thn s).1 (compileList els (compileList thn s).2).2.program)
        ++ [((compileList els (compileList thn s).2).2.fresh,
             GOp.if_block n cmp v (compileList thn s).1
               (compileList els (compileList thn s).2).1)] := hp
    rw [hremove] at hp2
    show p.1 < (compileList els (compileList thn s).2).2.fresh + 1
    rcases List.mem_append.mp hp2 with h | h
    · have h1 := hb p h
      have h2 := le_trans h1fresh h2fresh
      omega
    · simp only [List.mem_singleton] at h
      subst h
      exact Nat.lt_succ_self _
  · show s.fresh ≤ (compileList els (compileList thn s).2).2.fresh + 1
    have := le_trans h1fresh h2fresh
    omega
  · show s.fresh ≤ (compileList els (compileList thn s).2).2.fresh
    exact le_trans h1fresh h2fresh
  · show (compileList els (compileList thn s).2).2.fresh
        < (compileList els (compileList thn s).2).2.fresh + 1
    exact Nat.lt_succ_self _

theorem spec_func (n : String) (params : List String) (body : List GStmt) (s : CState)
    (ih : ListSpec body s) : StmtSpec (GStmt.func_def n params body) s := by
  intro hb
  obtain ⟨hprog, hbound, hfresh, hwin, hnd⟩ := ih hb
  have hremove : removeOps (compileList body s).1 (compileList body s).2.program
      = s.program := by
    rw [hprog]
    exact removeOps_append_self _ _ hnd (ids_disjoint s hb _ (fun p hp => (hwin p hp).1))
  refine ⟨?_, ?_, ?_, ?_, ?_⟩
  · show removeOps (compileList body s).1 (compileList body s).2.program
        ++ [((compileList body s).2.fresh, GOp.func_noop)]
      = s.program ++ [((compileList body s).2.fresh, GOp.func_noop)]
    rw [hremove]
  · intro p hp
    have hp2 : p ∈ removeOps (compileList body s).1 (compileList body s).2.program
        ++ [((compileList body s).2.fresh, GOp.func_noop)] := hp
    rw [hremove] at hp2
    show p.1 < (compileList body s).2.fresh + 1
    rcases List.mem_append.mp hp2 with h | h
    · have h1 := hb p h
      have h2 := hfresh
      omega
    · simp only [List.mem_singleton] at h
      subst h
      exact Nat.lt_succ_self _
  · show s.fresh ≤ (compileList body s).2.fresh + 1
    omega
  · show s.fresh ≤ (compileList body s).2.fresh
    exact hfresh
  · show (compileList body s).2.fresh < (compileList body s).2.fresh + 1
    exact Nat.lt_succ_self _

theorem spec_nil (s : CState) : ListSpec [] s := by
  intro hb
  refine ⟨by simp [compileList], hb, le_rfl, ?_, by simp [compileList, opIds]⟩
  intro p hp
  simp [compileList] at hp

theorem spec_cons (t : GStmt) (ts : List GStmt) (s : CState)
    (ih1 : StmtSpec t s) (ih2 : ListSpec ts (compileStmt t s).2) :
    ListSpec (t :: ts) s := by
  intro hb
  obtain ⟨h1prog, h1bound, h1fresh, h1lb, h1ub⟩ := ih1 hb
  obtain ⟨h2prog, h2bound, h2fresh, h2win, h2nd⟩ := ih2 h1bound
  refine ⟨?_, h2bound, le_trans h1fresh h2fresh, ?_, ?_⟩
  · show (compileList ts (compileStmt t s).2).2.program
      = s.program ++ ((compileStmt t s).1 :: (compileList ts (compileStmt t s).2).1)
    rw [h2prog, h1prog]
    simp
  · intro p hp
    show s.fresh ≤ p.1 ∧ p.1 < (compileList ts (compileStmt t s).2).2.fresh
    rcases List.mem_cons.mp hp with h | h
    · subst h
      exact ⟨h1lb, lt_of_lt_of_le h1ub h2fresh⟩
    · exact ⟨le_trans h1fresh (h2win p h).1, (h2win p h).2⟩
  · show (opIds ((compileStmt t s).1 :: (compileList ts (compileStmt t s).2).1)).Nodup
    simp only [opIds, List.map_cons, List.nodup_cons]
    refine ⟨?_, h2nd⟩
    intro hmem
    simp only [List.mem_map] at hmem
    obtain ⟨p, hp, hpq⟩ := hmem
    have h1 := (h2win p hp).1
    have h2 := h1ub
    omega

/-- Net effect of one statement handler: the shared program list grows by
exactly the handler's own (single) operation. -/
theorem compile_stmt_spec : ∀ (t : GStmt) (s : CState), StmtSpec t s :=
  compileStmt.induct StmtSpec ListSpec
    (fun k v s => spec_emit (.set_stmt k v) s)
    (fun sh x y s => spec_emit (.draw_stmt sh x y) s)
    (fun n v s => spec_emit (.var_stmt n v) s)
    spec_repeat spec_if spec_func
    (fun n args s => spec_emit (.call_stmt n args) s)
    (fun a s => spec_emit (.rotate a) s)
    (fun sx sy s => spec_emit (.scale sx sy) s)
    (fun tx ty s => spec_emit (.translate tx ty) s)
    (fun s => spec_emit .push s)
    (fun s => spec_emit .pop s)
    spec_nil spec_cons

/-- Net effect of transforming a statement list: the shared program list
grows by exactly one operation per statement. -/
theorem compile_list_spec : ∀ (ts : List GStmt) (s : CState), ListSpec ts s :=
  compileList.induct StmtSpec ListSpec
    (fun k v s => spec_emit (.set_stmt k v) s)
    (fun sh x y s => spec_emit (.draw_stmt sh x y) s)
    (fun n v s => spec_emit (.var_stmt n v) s)
    spec_repeat spec_if spec_func
    (fun n args s => spec_emit (.call_stmt n args) s)
    (fun a s => spec_emit (.rotate a) s)
    (fun sx sy s => spec_emit (.scale sx sy) s)
    (fun tx ty s => spec_emit (.translate tx ty) s)
    (fun s => spec_emit .push s)
    (fun s => spec_emit .pop s)
    spec_nil spec_cons

/-- One operation per statement: the length of a transformed block's
operation list equals the number of its statements. -/
theorem compileList_length : ∀ (ts : List GStmt) (s : CState),
    ((compileList ts s).1).length = ts.length := by
  intro ts
  induction ts with
  | nil => intro s; rfl
  | cons t rest ih =>
    intro s
    show ((compileStmt t s).1 :: (compileList rest (compileStmt t s).2).1).length
      = rest.length + 1
    rw [List.length_cons, ih]

/-- After compilation completes, the retained top-level program holds
exactly one deferred operation per top-level statement. -/
theorem top_level_one_per_stmt (prog : List GStmt) :
    ((compileList prog CState.init).2).program.length = prog.length := by
  have h := compile_list_spec prog CState.init (by intro p hp; simp [CState.init] at hp)
  rw [h.1]
  show ([] ++ (compileList prog CState.init).1).length = prog.length
  rw [List.nil_append, compileList_length]


/-- Model of `self.context.get("size", 10.0)` followed by `float(...)`. -/
def sizeVal (st : GRunState) : Except GErr ℚ :=
  match dictGet "size" st.context with
  | some (.num q) => .ok q
  | some (.str _) => .error .sizeNonNumeric
  | none => .ok 10

/-- Model of `str(self.context.get("color", "black"))`. -/
def colorVal (st : GRunState) : String :=
  match dictGet "color" st.context with
  | some v => v.render
  | none => "black"

/-- The `set_stmt` operation: strings are evaluated; the `size` key keeps
its previous value when `float(val)` fails (`except: pass`), any other key
stores the evaluated value. -/
def runSet (ver : Bool) (st : GRunState) (key : String) (value : GExpr) : GRunState :=
  let val := eval_value ver st value
  if key = "size" then
    match val with
    | .num q => { st with context := dictSet "size" (.num q) st.context }
    | .str _ => st
  else { st with context := dictSet key val st.context }

/-- The `draw_stmt` operation: coerce `x` and `y` to numbers (raising when
either evaluates to a non-numeric string), apply the current transform's
scale and translation in v2, and append the shape record. -/
def runDraw (ver : Bool) (st : GRunState) (shape : String) (x y : GExpr) :
    Except GErr GRunState :=
  match (eval_value ver st x).toNum, (eval_value ver st y).toNum with
  | some xq, some yq =>
    match sizeVal st with
    | .error e => .error e
    | .ok size =>
      let color := colorVal st
      if ver then
        let t := st.transform
        .ok { st with shapes := st.shapes ++
          [.v2 shape (xq * t.scale_x + t.tx) (yq * t.scale_y + t.ty) size color
            t.rotation [t.rotation, t.scale_x, t.scale_y, t.tx, t.ty]] }
      else
        .ok { st with shapes := st.shapes ++ [.v1 shape xq yq size color] }
  | _, _ => .error (.drawNonNumeric shape)

/-- The comparison of `if_block`: `is`/`==`/`!=` use Python equality
(`None`/mixed-type operands compare unequal); the order comparisons work
on two numbers or two strings and raise `TypeError` otherwise; an
unrecognised operator leaves `match = False`. -/
def cmpVals (cmp : String) (left : Option GVal) (right : GVal) : Except GErr Bool :=
  if cmp = "is" ∨ cmp = "==" then
    .ok (match left, right with
      | some (.num a), .num b => decide (a = b)
      | some (.str a), .str b => decide (a = b)
      | _, _ => false)
  else if cmp = "!=" then
    .ok (match left, right with
      | some (.num a), .num b => decide (a ≠ b)
      | some (.str a), .str b => decide (a ≠ b)
      | _, _ => true)
  else if cmp = ">" then
    match left, right with
    | some (.num a), .num b => .ok (decide (a > b))
    | some (.str a), .str b => .ok (decide (b < a))
    | _, _ => .error .typeError
  else if cmp = "<" then
    match left, right with
    | some (.num a), .num b => .ok (decide (a < b))
    | some (.str a), .str b => .ok (decide (a < b))
    | _, _ => .error .typeError
  else if cmp = ">=" then
    match left, right with
    | some (.num a), .num b => .ok (decide (a ≥ b))
    | some (.str a), .str b => .ok (decide (¬ a < b))
    | _, _ => .error .typeError
  else if cmp = "<=" then
    match left, right with
    | some (.num a), .num b => .ok (decide (a ≤ b))
    | some (.str a), .str b => .ok (decide (¬ b < a))
    | _, _ => .error .typeError
  else .ok false

/-- The `scale` operation's second operand: Python's
`sy if sy and not isinstance(sy, str) else (self._eval_value(sy) if sy
else scale_x)` — a missing or falsy (`0.0`) second argument falls back to
the first scale factor. -/
def scaleSnd (ver : Bool) (st : GRunState) (sxVal : GVal) : Option GExpr → GVal
  | none => sxVal
  | some (.lit q) => if q = 0 then sxVal else .num q
  | some .ivar => eval_value ver st .ivar
  | some (.name s) => eval_value ver st (.name s)

/-- The registry built at compile time by `func_def`. -/
abbrev Funcs := List (String × (List String × List (ℕ × GOp)))

/-- Parameter binding on invocation:
`for param_name, arg in zip(param_names, args): self.variables[param_name] = arg`
(`zip` truncates to the shorter list). -/
def bindArgs (vars : List (String × GVal)) (params : List String) (args : List GVal) :
    List (String × GVal) :=
  (params.zip args).foldl (fun vm pa => dictSet pa.1 pa.2 vm) vars

/-- A unit of pending work for the runner: one operation, a sequence of
operations, or the remaining passes of a `repeat` loop. -/
inductive Task where
  | one (op : GOp)
  | seq (ops : List (ℕ × GOp))
  | iter (idxs : List ℕ) (body : List (ℕ × GOp))

/-- The execution of deferred operations.  `.seq` is the in-order
execution of an operation list (the top-level runner in `start`, a block
body, or a function body); `.iter` is the `for idx in range(count)` loop
of `repeat_block`, which writes `self.i` before each pass; `.one` runs a
single operation:

* `repeat_block` runs its extracted body `count` times;
* `if_block` reads the variable (falling back to the context entry),
  evaluates the comparison against the current state, and runs the
  then-list or the else-list;
* `call_stmt` on an unknown name is silently a no-op; otherwise it
  evaluates the arguments, saves the whole variable mapping
  (`saved_vars = self.variables.copy()`), binds parameters pairwise,
  runs the registered body, and restores the saved mapping;
* transforms mutate `self.current_transform` (rotation and translation
  accumulate additively, scale multiplicatively); `push`/`pop` copy
  to/from `self.transform_stack` (`pop` on an empty stack is a no-op). -/
def runTask (ver : Bool) (funcs : Funcs) :
    ℕ → Task → GRunState → Except GErr GRunState
  | 0, _, _ => .error .outOfFuel
  | _ + 1, .seq [], st => .ok st
  | fuel + 1, .seq (op :: rest), st =>
    match runTask ver funcs fuel (.one op.2) st with
    | .ok st' => runTask ver funcs fuel (.seq rest) st'
    | .error e => .error e
  | _ + 1, .iter [] _, st => .ok st
  | fuel + 1, .iter (idx :: rest) body, st =>
    match runTask ver funcs fuel (.seq body) { st with i := (idx : ℚ) } with
    | .ok st' => runTask ver funcs fuel (.iter rest body) st'
    | .error e => .error e
  | fuel + 1, .one op, st =>
    match op with
    | .set_stmt k v => .ok (runSet ver st k v)
    | .draw_stmt sh x y => runDraw ver st sh x y
    | .var_stmt n v => .ok { st with vars := dictSet n (eval_value ver st v) st.vars }
    | .repeat_block n body => runTask ver funcs fuel (.iter (List.range n) body) st
    | .if_block n cmp v thn els =>
      let left := match dictGet n st.vars with
        | some x => some x
        | none => dictGet n st.context
      match cmpVals cmp left (eval_value ver st v) with
      | .error e => .error e
      | .ok b =>
        if b then runTask ver funcs fuel (.seq thn) st
        else runTask ver funcs fuel (.seq els) st
    | .func_noop => .ok st
    | .call_stmt n args =>
      match dictGet n funcs with
      | none => .ok st
      | some pb =>
        let evaled := args.map (eval_value ver st)
        let saved := st.vars
        match runTask ver funcs fuel (.seq pb.2)
            { st with vars := bindArgs st.vars pb.1 evaled } with
        | .ok st' => .ok { st' with vars := saved }
        | .error e => .error e
    | .rotate a =>
      match (eval_value ver st a).toNum with
      | some q =>
        .ok { st with transform :=
          { st.transform with rotation := st.transform.rotation + q } }
      | none => .error .transformNonNumeric
    | .scale sx sy =>
      match (eval_value ver st sx).toNum, (scaleSnd ver st (eval_value ver st sx) sy).toNum with
      | some a, some b =>
        .ok { st with transform :=
          { st.transform with scale_x := st.transform.scale_x * a,
                              scale_y := st.transform.scale_y * b } }
      | _, _ => .error .transformNonNumeric
    | .translate tx ty =>
      match (eval_value ver st tx).toNum, (eval_value ver st ty).toNum with
      | some a, some b =>
        .ok { st with transform :=
          { st.transform with tx := st.transform.tx + a, ty := st.transform.ty + b } }
      | _, _ => .error .transformNonNumeric
    | .push => .ok { st with stack := st.stack ++ [st.transform] }
    | .pop =>
      .ok (match st.stack.getLast? with
        | some t => { st with transform := t, stack := st.stack.dropLast }
        | none => st)

/-- Running one deferred operation. -/
def runOp (ver : Bool) (funcs : Funcs) (fuel : ℕ) (op : GOp) (st : GRunState) :
    Except GErr GRunState :=
  runTask ver funcs fuel (.one op) st

/-- Running an operation list in order (the Program Runner). -/
def runOps (ver : Bool) (funcs : Funcs) (fuel : ℕ) (ops : List (ℕ × GOp))
    (st : GRunState) : Except GErr GRunState :=
  runTask ver funcs fuel (.seq ops) st

/-- Model of `LarkGLIParser.parse(code)`: a fresh `_GLICompiler` per call compiles
the tree (building the top-level program and the function registry), the
`start` handler runs the retained top-level operations in order against
the fresh interpreter state, and the shape list is returned. -/
def gli_parse (ver : Bool) (prog : List GStmt) (fuel : ℕ) : Except GErr (List GShape) :=
  let c := compileList prog CState.init
  match runOps ver c.2.functions fuel c.2.program GRunState.init with
  | .ok st => .ok st.shapes
  | .error e => .error e

/-! ### Run-time lemmas: function invocation and draw -/

/-- A successful function call leaves the caller's variable mapping exactly
as it was: the handler copies `self.variables` before binding parameters
and assigns the copy back after the body finishes (and a call to an
unknown function is a no-op). -/
theorem call_restores_vars (ver : Bool) (funcs : Funcs) (fuel : ℕ) (n : String)
    (args : List GExpr) (st st' : GRunState)
    (h : runOp ver funcs fuel (.call_stmt n args) st = .ok st') :
    st'.vars = st.vars := by
  cases fuel with
  | zero => simp [runOp, runTask] at h
  | succ fuel =>
    rw [runOp] at h
    cases hf : dictGet n funcs with
    | none =>
      simp only [runTask, hf] at h
      cases h
      rfl
    | some pb =>
      simp only [runTask, hf] at h
      cases hrun : runTask ver funcs fuel (.seq pb.2)
          { st with vars := bindArgs st.vars pb.1 (args.map (eval_value ver st)) } with
      | ok st2 =>
        rw [hrun] at h
        cases h
        rfl
      | error e =>
        rw [hrun] at h
        cases h

/-- The `draw` operation in v2 (enhanced) mode: when `x` and `y` evaluate
to numbers, the recorded position is exactly
`(x * scale_x + tx, y * scale_y + ty)` for the transform current at
execution time; the accumulated rotation is stored in the shape's rotation
field and transform snapshot but does not enter the coordinates. -/
theorem draw_v2_spec (funcs : Funcs) (fuel : ℕ) (sh : String) (x y : GExpr)
    (st : GRunState) (xq yq size : ℚ)
    (hx : (eval_value true st x).toNum = some xq)
    (hy : (eval_value true st y).toNum = some yq)
    (hsize : sizeVal st = .ok size) :
    runOp true funcs (fuel + 1) (.draw_stmt sh x y) st =
      .ok { st with shapes := st.shapes ++
        [.v2 sh (xq * st.transform.scale_x + st.transform.tx)
                (yq * st.transform.scale_y + st.transform.ty)
                size (colorVal st) st.transform.rotation
                [st.transform.rotation, st.transform.scale_x, st.transform.scale_y,
                 st.transform.tx, st.transform.ty]] } := by
  rw [runOp]
  simp [runTask, runDraw, hx, hy, hsize]

theorem zip_take_right (params : List String) (args : List GVal) :
    params.zip (args.take params.length) = params.zip args := by
  induction params generalizing args with
  | nil => simp
  | cons p rest ih =>
    cases args with
    | nil => simp
    | cons a as => simp [ih]

theorem dictGet_foldl_dictSet (pairs : List (String × GVal))
    (vars : List (String × GVal)) (p : String)
    (h : ¬ p ∈ pairs.map Prod.fst) :
    dictGet p (pairs.foldl (fun vm pa => dictSet pa.1 pa.2 vm) vars) = dictGet p vars := by
  induction pairs generalizing vars with
  | nil => rfl
  | cons pa rest ih =>
    simp only [List.map_cons, List.mem_cons] at h
    push_neg at h
    simp only [List.foldl_cons]
    rw [ih _ h.2, dictGet_dictSet_ne pa.1 p pa.2 vars h.1]

theorem mem_zip_keys_take (params : List String) (args : List GVal) (p : String)
    (h : p ∈ (params.zip args).map Prod.fst) : p ∈ params.take args.length := by
  induction params generalizing args with
  | nil => simp at h
  | cons q rest ih =>
    cases args with
    | nil => simp at h
    | cons a as =>
      simp only [List.zip_cons_cons, List.map_cons, List.mem_cons] at h
      rcases h with rfl | h
      · simp
      · simp only [List.length_cons, List.take_succ_cons, List.mem_cons]
        exact Or.inr (ih as h)

/-- A parameter with no matching argument (beyond the zip truncation) is
not bound: its entry in the variable mapping is whatever it was before the
binding loop ran. -/
theorem dictGet_bindArgs_unmatched (vars : List (String × GVal))
    (params : List String) (args : List GVal) (p : String)
    (h : ¬ p ∈ params.take args.length) :
    dictGet p (bindArgs vars params args) = dictGet p vars := by
  rw [bindArgs]
  exact dictGet_foldl_dictSet _ _ _ (fun hm => h (mem_zip_keys_take params args p hm))

/-- Binding is insensitive to surplus arguments: `zip` truncates, so
binding against the arguments truncated to the parameter count builds the
same mapping. -/
theorem bindArgs_take (vars : List (String × GVal)) (params : List String)
    (args : List GVal) :
    bindArgs vars params (args.take params.length) = bindArgs vars params args := by
  rw [bindArgs, bindArgs, zip_take_right]

end GLI

namespace TinyMath

open TinyDSL

/-- Running a concatenated program: the suffix runs in the state left by
the prefix, and a failure in the prefix short-circuits. -/
theorem tmRun_append (l₁ l₂ : List TMStmt) : ∀ st : TMState,
    tmRun st (l₁ ++ l₂) =
      match tmRun st l₁ with
      | .ok st' => tmRun st' l₂
      | .error e => .error e := by
  induction l₁ with
  | nil => intro st; simp [tmRun]
  | cons s rest ih =>
    intro st
    rw [List.cons_append, tmRun, tmRun]
    cases tmStmtExec st s with
    | ok st' => exact ih st'
    | error e => rfl

end TinyMath

namespace TinyCalc

open TinyDSL

theorem tcRunP_append (l₁ l₂ : List TCStmt) : ∀ st : TCState,
    tcRunP st (l₁ ++ l₂) =
      match tcRunP st l₁ with
      | (st', none) => tcRunP st' l₂
      | (st', some e) => (st', some e) := by
  induction l₁ with
  | nil => intro st; simp [tcRunP]
  | cons s rest ih =>
    intro st
    rw [List.cons_append, tcRunP, tcRunP]
    cases tcExec st s with
    | ok st' => exact ih st'
    | error e => rfl

/-- Inverting a successful `define_stmt`: both quantities were nonzero and
the graph gained exactly the two reciprocal edges. -/
theorem define_stmt_ok (g : Graph) (q1 : ℚ) (u1 : String) (q2 : ℚ) (u2 : String)
    (g' : Graph) (h : define_stmt g q1 u1 q2 u2 = .ok g') :
    q1 ≠ 0 ∧ q2 ≠ 0 ∧ g' = edgeSet (edgeSet g u1 u2 (q2 / q1)) u2 u1 (q1 / q2) := by
  rw [define_stmt] at h
  split_ifs at h with h1 h2
  refine ⟨h1, h2, ?_⟩
  cases h
  rfl

/-- The statements whose `define` declarations relate two distinct unit
names (any non-`define` statement qualifies trivially). -/
def distinctDefines : TCStmt → Prop
  | .defineS _ u1 _ u2 => u1 ≠ u2
  | .convertS _ _ _ => True

/-- The unit graph stays symmetric across any run whose `define`
declarations all relate two distinct units, whether or not the run
completes without error. -/
theorem symm_tcRunP : ∀ (prog : List TCStmt) (st : TCState), Symm st.units →
    (∀ s ∈ prog, distinctDefines s) → Symm ((tcRunP st prog).1).units := by
  intro prog
  induction prog with
  | nil => intro st hs _; exact hs
  | cons s rest ih =>
    intro st hs hd
    rw [tcRunP]
    cases hex : tcExec st s with
    | error e => exact hs
    | ok st' =>
      refine ih st' ?_ (fun t ht => hd t (List.mem_cons_of_mem _ ht))
      cases s with
      | defineS q1 u1 q2 u2 =>
        have hne : u1 ≠ u2 := hd _ (List.mem_cons_self _ _)
        rw [tcExec] at hex
        cases hds : define_stmt st.units q1 u1 q2 u2 with
        | error e => rw [hds] at hex; cases hex
        | ok gg =>
          rw [hds] at hex
          cases hex
          obtain ⟨h1, h2, rfl⟩ := define_stmt_ok _ _ _ _ _ _ hds
          exact symm_define st.units q1 q2 u1 u2 h1 h2 hne hs
      | convertS a src tgt =>
        rw [tcExec] at hex
        cases hc : convert st.units a src tgt with
        | error e => rw [hc] at hex; cases hex
        | ok r =>
          rw [hc] at hex
          cases hex
          exact hs

end TinyCalc

/-! ## The claims -/

section Claims

open TinyCalc TinyMath Lexi GLI

/-- C1: after compilation the top-level program list holds exactly one
deferred operation per top-level statement (so no operation originating
inside a block body sits in the list the top-level runner executes), and
for the program `repeat 3 { draw circle x=$i y=0 }` the top-level list
holds exactly the one loop wrapper, and running the program produces
exactly 3 shape records whose x-values are the loop indices 0, 1, 2. -/
theorem claim_C1 :
    (∀ prog : List GStmt,
      ((compileList prog CState.init).2).program.length = prog.length) ∧
    ((compileList [.repeat_block 3 [.draw_stmt "circle" .ivar (.lit 0)]]
        CState.init).2).program.length = 1 ∧
    gli_parse false [.repeat_block 3 [.draw_stmt "circle" .ivar (.lit 0)]] 32 =
      .ok [.v1 "circle" 0 0 10 "black", .v1 "circle" 1 0 10 "black",
           .v1 "circle" 2 0 10 "black"] :=
  ⟨top_level_one_per_stmt, rfl, rfl⟩

/-- C2: all-or-nothing failure.  If the statements before some statement
succeed (possibly accumulating output fragments) and that statement
raises, `parse` returns a single error and none of the accumulated output:
for TinyMath, `parse` raises the wrapped error; for TinyCalc, the `parse`
call returns the error and no output value. -/
theorem claim_C2 :
    (∀ (pre : List TMStmt) (bad : TMStmt) (rest : List TMStmt) (st₁ : TMState)
        (e : String),
        tmRun TMState.init pre = .ok st₁ → tmStmtExec st₁ bad = .error e →
        tmParse (pre ++ bad :: rest) = .error ("TinyMath parse error: " ++ e)) ∧
    (∀ (st : TCState) (pre : List TCStmt) (bad : TCStmt) (rest : List TCStmt)
        (st₁ : TCState) (e : CalcErr),
        tcRunP st pre = (st₁, none) → tcExec st₁ bad = .error e →
        (tcParse st (pre ++ bad :: rest)).2 = .error e) := by
  constructor
  · intro pre bad rest st₁ e hpre hbad
    have h : tmRun TMState.init (pre ++ bad :: rest) = .error e := by
      rw [tmRun_append, hpre]
      show tmRun st₁ (bad :: rest) = .error e
      rw [tmRun, hbad]
    rw [tmParse, h]
  · intro st pre bad rest st₁ e hpre hbad
    have h : tcRunP st (pre ++ bad :: rest) = (st₁, some e) := by
      rw [tcRunP_append, hpre]
      show tcRunP st₁ (bad :: rest) = (st₁, some e)
      rw [tcRunP, hbad]
    rw [tcParse, h]

/-- Witness for C2: five-statement programs whose third statement fails —
the first two statements had already produced fragments (two `x = v`
result lines for TinyMath; a `2 B` conversion fragment for TinyCalc), yet
the whole run returns only the error. -/
theorem claim_C2_witness :
    tmParse [.assignment "x" (.num 1), .assignment "y" (.num 2), .exprS (.var "z"),
        .exprS (.num 3), .exprS (.num 4)]
      = .error ("TinyMath parse error: " ++ "Undefined variable: z") ∧
    (tcParse TCState.init [.defineS 1 "A" 2 "B", .convertS 1 "A" "B",
        .convertS 1 "C" "B", .convertS 1 "B" "A", .defineS 1 "B" 3 "D"]).2
      = .error (.unknownUnit "C" none) := by
  constructor
  · exact claim_C2.1 [.assignment "x" (.num 1), .assignment "y" (.num 2)]
      (.exprS (.var "z")) [.exprS (.num 3), .exprS (.num 4)]
      ⟨[("x", 1), ("y", 2)], [.assignF "x" 1, .assignF "y" 2]⟩
      "Undefined variable: z" rfl rfl
  · exact claim_C2.2 TCState.init [.defineS 1 "A" 2 "B", .convertS 1 "A" "B"]
      (.convertS 1 "C" "B") [.convertS 1 "B" "A", .defineS 1 "B" 3 "D"]
      ⟨[("A", [("B", 2)]), ("B", [("A", 1/2)])], [(2, "B")]⟩
      (.unknownUnit "C" none)
      (by simp [tcRunP, tcExec, TCState.init, define_stmt, edgeSet, dictGet, dictSet,
            convert, hasUnit, bfs, TCStmt.defineS.injEq])
      (by simp [tcExec, convert, hasUnit, dictGet, pluralHint, strEndsWithS])

/-- C3: evaluation of the Lexi code at the failing input
`repeat 3 { say "Hello" }`.  The `say` handler fires once, eagerly, while
the repeat body is transformed; `repeat_block`'s loop body is `pass`, so
the program's output holds one `"Hello"` instead of three, and only the
loop-index variable (left at its final value 2) records that the loop
counted. -/
theorem claim_C3 :
    lexiParse LexiState.init [.repeat_block 3 [.say_stmt "Hello"]] = ["Hello"] ∧
    (lexiList LexiState.init [.repeat_block 3 [.say_stmt "Hello"]]).context
      = [("i", .num 2)] :=
  ⟨rfl, rfl⟩

/-- C5: multi-hop composition.  With exactly the declarations
`define 1 A = 2 B` and `define 1 B = 3 C` in the unit graph, converting
1 A to C follows the breadth-first path A → B → C, multiplying the carried
amount by each edge factor on enqueue, and returns 6. -/
theorem claim_C5 :
    convert ((tcRunP TCState.init
        [.defineS 1 "A" 2 "B", .defineS 1 "B" 3 "C"]).1).units 1 "A" "C" = .ok 6 := by
  have hg : ((tcRunP TCState.init
      [.defineS 1 "A" 2 "B", .defineS 1 "B" 3 "C"]).1).units
      = [("A", [("B", 2)]), ("B", [("A", 1/2), ("C", 3)]), ("C", [("B", 1/3)])] := by
    simp [tcRunP, tcExec, TCState.init, define_stmt, edgeSet, dictGet, dictSet]
  rw [hg]
  simp [convert, hasUnit, dictGet, bfs]
  norm_num

/-- C4 (corrected): the TinyCalc parser embeds one transformer instance at
construction, so its state persists across `parse` calls: the output
buffer of the transformer state only ever grows (is never reset between
calls), and a successful `parse` returns the whole persisted buffer —
including fragments accumulated by earlier runs on the same parser
instance.  (The GLI and TinyMath parsers build a fresh transformer per
`parse` call — `gli_parse` and `tmParse` take no persistent state — so for
those two languages the fresh-context-per-run property does hold.) -/
theorem claim_C4 : ∀ (st : TCState) (prog : List TCStmt),
    (∃ tail, ((tcParse st prog).1).output = st.output ++ tail) ∧
    (∀ out, (tcParse st prog).2 = .ok out → out = ((tcParse st prog).1).output) := by
  intro st prog
  rcases hr : tcRunP st prog with ⟨st', e?⟩
  have hpre := tcRunP_output_prefix prog st
  rw [hr] at hpre
  cases e? with
  | none =>
    have h1 : tcParse st prog = (st', .ok st'.output) := by rw [tcParse, hr]
    constructor
    · rw [h1]
      exact hpre
    · intro out hout
      rw [h1] at hout ⊢
      simp only [Except.ok.injEq] at hout
      rw [← hout]
  | some e =>
    have h1 : tcParse st prog = (st', .error e) := by rw [tcParse, hr]
    constructor
    · rw [h1]
      exact hpre
    · intro out hout
      rw [h1] at hout
      cases hout

/-- Witness for C4: on a parser whose transformer already holds the unit
graph and the output fragment `2 B` from an earlier run, parsing
`convert 2 B to A` succeeds and the returned output starts with the stale
fragment from the earlier run. -/
theorem claim_C4_witness :
    [((2 : ℚ), "B"), ((1 : ℚ), "A")] =
      ((tcParse ⟨[("A", [("B", (2 : ℚ))]), ("B", [("A", (1 : ℚ)/2)])], [((2 : ℚ), "B")]⟩
        [.convertS 2 "B" "A"]).1).output :=
  (claim_C4 ⟨[("A", [("B", (2 : ℚ))]), ("B", [("A", (1 : ℚ)/2)])], [((2 : ℚ), "B")]⟩
      [.convertS 2 "B" "A"]).2 [(2, "B"), (1, "A")]
    (by simp [tcParse, tcRunP, tcExec, convert, hasUnit, dictGet, bfs])

/-- Counterexample for C4 as stated: running `convert 2 B to A` on a
TinyCalc parser that previously ran `define 1 A = 2 B; convert 1 A to B`
returns an output that contains the earlier run's fragment — while the
same program on a freshly constructed parser fails with an unknown-unit
error.  The two results differ, refuting the claim that every parse call
starts from an empty context. -/
theorem claim_C4_counterexample :
    (tcParse (tcParse TCState.init [.defineS 1 "A" 2 "B", .convertS 1 "A" "B"]).1
        [.convertS 2 "B" "A"]).2 = .ok [((2 : ℚ), "B"), ((1 : ℚ), "A")] ∧
    (tcParse TCState.init [.convertS 2 "B" "A"]).2
      = .error (.unknownUnit "B" none) ∧
    (tcParse (tcParse TCState.init [.defineS 1 "A" 2 "B", .convertS 1 "A" "B"]).1
        [.convertS 2 "B" "A"]).2
      ≠ (tcParse TCState.init [.convertS 2 "B" "A"]).2 := by
  have h1 : (tcParse (tcParse TCState.init [.defineS 1 "A" 2 "B", .convertS 1 "A" "B"]).1
      [.convertS 2 "B" "A"]).2 = .ok [((2 : ℚ), "B"), ((1 : ℚ), "A")] := by
    simp [tcParse, tcRunP, tcExec, TCState.init, define_stmt, edgeSet, dictGet, dictSet,
      convert, hasUnit, bfs]
  have h2 : (tcParse TCState.init [.convertS 2 "B" "A"]).2
      = .error (.unknownUnit "B" none) := by
    simp [tcParse, tcRunP, tcExec, TCState.init, convert, hasUnit, dictGet, pluralHint,
      strEndsWithS]
  exact ⟨h1, h2, by rw [h1, h2]; simp⟩

/-- C6 (corrected to declarations of two distinct unit names): a
declaration `define 1 A = k B` with `k ≠ 0` and `A ≠ B` inserts exactly
the edge `A→B` with factor `k` and the edge `B→A` with factor `1/k`,
leaves every other directed edge unchanged, and afterwards
`convert(1, A, B) = k` and `convert(k, B, A) = 1` hold exactly; moreover
the unit graph stays symmetric (each edge paired with its reciprocal)
across every run whose `define` declarations relate distinct names. -/
theorem claim_C6 :
    (∀ (g : Graph) (k : ℚ) (A B : String) (g' : Graph), A ≠ B → k ≠ 0 →
      define_stmt g 1 A k B = .ok g' →
      edgeGet g' A B = some k ∧ edgeGet g' B A = some (1 / k) ∧
      (∀ u v, ¬ (u = A ∧ v = B) → ¬ (u = B ∧ v = A) →
        edgeGet g' u v = edgeGet g u v) ∧
      convert g' 1 A B = .ok k ∧ convert g' k B A = .ok 1) ∧
    (∀ (prog : List TCStmt) (st : TCState), Symm st.units →
      (∀ s ∈ prog, distinctDefines s) → Symm ((tcRunP st prog).1).units) := by
  constructor
  · intro g k A B g' hAB hk hdef
    obtain ⟨h1, h2, rfl⟩ := define_stmt_ok g 1 A k B g' hdef
    have hfwd := edgeGet_define_fwd g 1 k A B hAB
    have hrev := edgeGet_define_rev g 1 k A B
    simp only [div_one] at hfwd hrev ⊢
    have hA : hasUnit (edgeSet (edgeSet g A B k) B A (1 / k)) A = true := by
      rw [hasUnit_edgeSet, hasUnit_edgeSet]
      simp
    have hB : hasUnit (edgeSet (edgeSet g A B k) B A (1 / k)) B = true := by
      rw [hasUnit_edgeSet]
      simp
    refine ⟨hfwd, hrev, ?_, ?_, ?_⟩
    · intro u v h12 h21
      have h := edgeGet_define_frame g 1 k A B hAB u v h12 h21
      simpa [div_one] using h
    · have h := convert_direct _ A B 1 k hAB hA hB hfwd
      rwa [one_mul] at h
    · have h := convert_direct _ B A k (1 / k) (Ne.symm hAB) hB hA hrev
      rwa [mul_one_div_cancel hk] at h
  · exact symm_tcRunP

/-- Witness for C6: after `define 1 A = 2 B` on the empty graph,
`convert(1, A, B) = 2` and `convert(2, B, A) = 1`. -/
theorem claim_C6_witness :
    convert [("A", [("B", (2 : ℚ))]), ("B", [("A", (1 : ℚ)/2)])] 1 "A" "B" = .ok 2 ∧
    convert [("A", [("B", (2 : ℚ))]), ("B", [("A", (1 : ℚ)/2)])] 2 "B" "A" = .ok 1 := by
  have h := (claim_C6.1 [] 2 "A" "B"
      [("A", [("B", (2 : ℚ))]), ("B", [("A", (1 : ℚ)/2)])]
      (by decide) (by norm_num)
      (by simp [define_stmt, edgeSet, dictGet, dictSet]))
  exact ⟨h.2.2.2.1, h.2.2.2.2⟩

/-- Counterexample for C6 as stated: the self-referential declaration
`define 1 u = 2 u` inserts only one edge (the self-loop is overwritten by
the reciprocal factor), and `convert(1, u, u)` afterwards returns 1, not
the declared factor 2 — so the claim's quantification over every
declaration fails for a declaration whose two unit names coincide. -/
theorem claim_C6_counterexample :
    define_stmt ([] : Graph) 1 "u" 2 "u" = .ok [("u", [("u", (1 : ℚ)/2)])] ∧
    convert [("u", [("u", (1 : ℚ)/2)])] 1 "u" "u" = .ok 1 ∧
    (Except.ok (1 : ℚ) : Except CalcErr ℚ) ≠ .ok 2 := by
  refine ⟨by simp [define_stmt, edgeSet, dictGet, dictSet], rfl, by simp⟩

/-- C7: for `convert(amount, src, tgt)` with `src ≠ tgt`, a source unit
absent from the graph fails first with an unknown-unit error carrying the
pluralization hint, then an absent target unit does; and whenever the
failing name ends in `s` with its singular form a known unit, the hint
names exactly that singular form. -/
theorem claim_C7 : ∀ (g : Graph) (amt : ℚ) (src tgt : String), src ≠ tgt →
    (hasUnit g src = false →
      convert g amt src tgt = .error (.unknownUnit src (pluralHint g src))) ∧
    (hasUnit g src = true → hasUnit g tgt = false →
      convert g amt src tgt = .error (.unknownUnit tgt (pluralHint g tgt))) ∧
    (∀ name, strEndsWithS name = true → hasUnit g (strDropLast name) = true →
      pluralHint g name = some (strDropLast name)) := by
  intro g amt src tgt hne
  refine ⟨?_, ?_, ?_⟩
  · intro hsrc
    rw [convert, if_neg hne, if_pos (by simp [hsrc])]
  · intro hsrc htgt
    rw [convert, if_neg hne, if_neg (by simp [hsrc]), if_pos (by simp [htgt])]
  · intro name h1 h2
    rw [pluralHint, if_pos (by simp [h1, h2])]

/-- Witness for C7: with only `flurb` (and `zept`) declared,
`convert(1, "flurbs", "zept")` fails with an unknown-unit error whose
hint names `flurb`. -/
theorem claim_C7_witness :
    convert [("flurb", [("zept", (3 : ℚ))]), ("zept", [("flurb", (1 : ℚ)/3)])]
        1 "flurbs" "zept"
      = .error (.unknownUnit "flurbs" (some "flurb")) := by
  have h := (claim_C7 [("flurb", [("zept", (3 : ℚ))]), ("zept", [("flurb", (1 : ℚ)/3)])]
      1 "flurbs" "zept" (by decide)).1 rfl
  rw [h]
  rfl

/-- C8: in enhanced mode, a function call saves the whole variable mapping
by copy before binding parameters and assigns the copy back when the body
finishes, so every successful call leaves the caller's variable mapping
(parameter-named entries included) exactly as it was before the call. -/
theorem claim_C8 : ∀ (funcs : Funcs) (fuel : ℕ) (n : String) (args : List GExpr)
    (st st' : GRunState),
    runOp true funcs fuel (.call_stmt n args) st = .ok st' → st'.vars = st.vars :=
  fun funcs fuel n args st st' h => call_restores_vars true funcs fuel n args st st' h

/-- Witness for C8: a function with parameter `x` whose body writes
variable `y` and pushes the transform; calling it with argument 5 from a
state where the caller's own `x` is 1 leaves `x = 1` (and no `y`) after
the call, with only the transform stack changed. -/
theorem claim_C8_witness :
    runOp true [("bump", (["x"], [(0, GOp.var_stmt "y" (.lit 99)), (1, GOp.push)]))] 6
        (.call_stmt "bump" [.lit 5])
        ⟨[], [("color", .str "black"), ("size", .num 10)], [("x", GVal.num 1)], 0,
          Transform2D.init, []⟩
      = .ok ⟨[], [("color", .str "black"), ("size", .num 10)], [("x", GVal.num 1)], 0,
          Transform2D.init, [Transform2D.init]⟩ ∧
    (⟨[], [("color", .str "black"), ("size", .num 10)], [("x", GVal.num 1)], 0,
      Transform2D.init, [Transform2D.init]⟩ : GRunState).vars
      = (⟨[], [("color", .str "black"), ("size", .num 10)], [("x", GVal.num 1)], 0,
          Transform2D.init, []⟩ : GRunState).vars :=
  ⟨rfl, claim_C8 [("bump", (["x"], [(0, GOp.var_stmt "y" (.lit 99)), (1, GOp.push)]))] 6
    "bump" [.lit 5]
    ⟨[], [("color", .str "black"), ("size", .num 10)], [("x", GVal.num 1)], 0,
      Transform2D.init, []⟩
    ⟨[], [("color", .str "black"), ("size", .num 10)], [("x", GVal.num 1)], 0,
      Transform2D.init, [Transform2D.init]⟩ rfl⟩

/-- C9: in enhanced mode, a draw whose `x` and `y` evaluate to numbers
records the position `(x * scale_x + tx, y * scale_y + ty)` computed from
the transform current at execution time; the accumulated rotation goes
into the shape's rotation field and transform snapshot but never enters
the recorded coordinates. -/
theorem claim_C9 : ∀ (funcs : Funcs) (fuel : ℕ) (sh : String) (x y : GExpr)
    (st : GRunState) (xq yq size : ℚ),
    (eval_value true st x).toNum = some xq →
    (eval_value true st y).toNum = some yq →
    sizeVal st = .ok size →
    runOp true funcs (fuel + 1) (.draw_stmt sh x y) st =
      .ok { st with shapes := st.shapes ++
        [.v2 sh (xq * st.transform.scale_x + st.transform.tx)
                (yq * st.transform.scale_y + st.transform.ty)
                size (colorVal st) st.transform.rotation
                [st.transform.rotation, st.transform.scale_x, st.transform.scale_y,
                 st.transform.tx, st.transform.ty]] } :=
  fun funcs fuel sh x y st xq yq size hx hy hsize =>
    draw_v2_spec funcs fuel sh x y st xq yq size hx hy hsize

/-- Witness for C9: with accumulated rotation 45, scale (2,3) and
translation (5,7), `draw circle x=10 y=1` records position
`(10·2+5, 1·3+7) = (25, 10)` — the rotation appears only in the rotation
field and the snapshot. -/
theorem claim_C9_witness :
    runOp true [] 1 (.draw_stmt "circle" (.lit 10) (.lit 1))
        ⟨[], [("color", .str "black"), ("size", .num 10)], [], 0, ⟨45, 2, 3, 5, 7⟩, []⟩
      = .ok ⟨[.v2 "circle" 25 10 10 "black" 45 [45, 2, 3, 5, 7]],
          [("color", .str "black"), ("size", .num 10)], [], 0, ⟨45, 2, 3, 5, 7⟩, []⟩ := by
  have h := claim_C9 [] 0 "circle" (.lit 10) (.lit 1)
    ⟨[], [("color", .str "black"), ("size", .num 10)], [], 0, ⟨45, 2, 3, 5, 7⟩, []⟩
    10 1 10 rfl rfl rfl
  rw [h]
  simp [colorVal, dictGet, GVal.render, GRunState.init]
  norm_num

/-- C10: calling a user-defined function with an argument count different
from its parameter count raises no error: the binding `zip` truncates, so
surplus arguments are ignored (the call behaves exactly as if the extra
arguments were dropped), parameters beyond the argument count are left
unbound (their variable entries are unchanged), and whenever the body runs
to completion the call succeeds. -/
theorem claim_C10 : ∀ (ver : Bool) (funcs : Funcs) (fuel : ℕ) (n : String)
    (args : List GExpr) (st : GRunState) (params : List String)
    (body : List (ℕ × GOp)),
    dictGet n funcs = some (params, body) →
    (runOp ver funcs (fuel + 1) (.call_stmt n args) st
      = runOp ver funcs (fuel + 1) (.call_stmt n (args.take params.length)) st) ∧
    (∀ p, ¬ p ∈ params.take args.length →
      dictGet p (bindArgs st.vars params (args.map (eval_value ver st)))
        = dictGet p st.vars) ∧
    (∀ st₂, runTask ver funcs fuel (.seq body)
        { st with vars := bindArgs st.vars params (args.map (eval_value ver st)) }
        = .ok st₂ →
      runOp ver funcs (fuel + 1) (.call_stmt n args) st
        = .ok { st₂ with vars := st.vars }) := by
  intro ver funcs fuel n args st params body hf
  refine ⟨?_, ?_, ?_⟩
  · simp only [runOp, runTask, hf]
    have hb : bindArgs st.vars params ((args.take params.length).map (eval_value ver st))
        = bindArgs st.vars params (args.map (eval_value ver st)) := by
      rw [List.map_take, bindArgs_take]
    rw [hb]
  · intro p hp
    exact dictGet_bindArgs_unmatched st.vars params (args.map (eval_value ver st)) p
      (by rwa [List.length_map])
  · intro st₂ hrun
    simp only [runOp, runTask, hf, hrun]

/-- Witness for C10: a function of two parameters called with three
arguments behaves exactly as when called with two, and when called with
one argument the second parameter `b` stays unbound. -/
theorem claim_C10_witness :
    (runOp true [("f", (["a", "b"], [(0, GOp.var_stmt "c" (.lit 1))]))] 4
        (.call_stmt "f" [.lit 1, .lit 2, .lit 3]) GRunState.init
      = runOp true [("f", (["a", "b"], [(0, GOp.var_stmt "c" (.lit 1))]))] 4
        (.call_stmt "f" [.lit 1, .lit 2]) GRunState.init) ∧
    dictGet "b" (bindArgs GRunState.init.vars ["a", "b"]
        ([GExpr.lit 9].map (eval_value true GRunState.init))) = none := by
  constructor
  · exact (claim_C10 true [("f", (["a", "b"], [(0, GOp.var_stmt "c" (.lit 1))]))] 3
      "f" [.lit 1, .lit 2, .lit 3] GRunState.init ["a", "b"]
      [(0, GOp.var_stmt "c" (.lit 1))] rfl).1
  · rw [(claim_C10 true [("f", (["a", "b"], [(0, GOp.var_stmt "c" (.lit 1))]))] 0
      "f" [.lit 9] GRunState.init ["a", "b"]
      [(0, GOp.var_stmt "c" (.lit 1))] rfl).2.1 "b" (by decide)]
    rfl

end Claims

end TinyDSL
